import Mathlib

/-!
# Verification of the tsuba S3 transfer engine (`src/libtsuba/src/s3.cpp`)

This file shallowly embeds the pure control/data logic of the S3 transfer
layer of the katana repository (`s3.cpp`, plus the `ReadGroup`/`AsyncOpGroup`
and `SegmentedBufferView` interfaces it uses) and proves properties about it.

Remote interactions are modelled by passing the remote responses (outcomes)
as explicit inputs: the functions below compute exactly what the C++ code
computes from those responses, and additionally record the requests the code
would issue, so that request-shape claims can be stated.
-/

namespace Tsuba

/-! ## Constants from `s3.cpp` (lines 49-57).
`MB(x)`/`GB(x)` are the usual binary-unit macros of `tsuba_internal.h`
(`x * 1024 * 1024` and `x * 1024 * 1024 * 1024`). -/

def kMB : Nat := 1024 * 1024

def kGB : Nat := 1024 * kMB

/-- Constant `kS3MinBufSize = MB(5)`. -/
def kS3MinBufSize : Nat := 5 * kMB

/-- Constant `kS3DefaultBufSize = MB(8)`. -/
def kS3DefaultBufSize : Nat := 8 * kMB

/-- Constant `kS3MaxBufSize = GB(5)`. -/
def kS3MaxBufSize : Nat := 5 * kGB

/-- Constant `kS3MaxMultiPart = 10000`. -/
def kS3MaxMultiPart : Nat := 10000

/-- Constant `kS3MaxDelete = 995`. -/
def kS3MaxDelete : Nat := 995

/-! ## SegmentedBufferView -/

/-- One part of a segmented buffer view.  The C++ struct
`SegmentedBufferView::BufPart` carries `start`, `end` (exclusive) and a
pointer `dest` into the caller's buffer; we keep the two offsets (`stop`
stands for the C++ field `end`, a Lean keyword). -/
structure BufPart where
  start : Nat
  stop : Nat
  deriving Repr, DecidableEq

/-- Number of segments covering `size` bytes with segments of
`segment_size` bytes: the ceiling of `size / segment_size`. -/
def numSegments (size segment_size : Nat) : Nat :=
  (size + segment_size - 1) / segment_size

/-- Modelled from the spec: the implementation of `SegmentedBufferView`
(its header is included by `s3.cpp` but its code is not under `src/`).
Per the spec (§2, §3, §4.1) it is a pure data transform producing "an
ordered, non-overlapping partition of the range into parts" of the target
segment size: part `i` covers
`[start + i*segment_size, start + min(size, (i+1)*segment_size))`.
A zero-length range yields an empty sequence. -/
def segmentParts (start size segment_size : Nat) : List BufPart :=
  (List.range (numSegments size segment_size)).map fun i =>
    { start := start + i * segment_size
      stop := start + min size ((i + 1) * segment_size) }

/-- Function `SegmentBuf` from `s3.cpp` lines 175-190: chooses the segment size
(enlarging it when the default would exceed `kS3MaxMultiPart` parts) and
builds the segmented view.  The `GALOIS_LOG_VASSERT` on the adjusted
segment size is modelled as returning `none`. -/
def SegmentBuf (start size : Nat) : Option (List BufPart) :=
  if size / kS3DefaultBufSize > kS3MaxMultiPart then
    if kS3MinBufSize < size / (kS3MaxMultiPart + 1) ∧
        size / (kS3MaxMultiPart + 1) < kS3MaxBufSize then
      some (segmentParts start size (size / (kS3MaxMultiPart + 1)))
    else
      none
  else
    some (segmentParts start size kS3DefaultBufSize)

/-! ## Error codes and results

`tsuba::ErrorCode` lives in `tsuba/Errors.h`, not under `src/`; the
constructors below are the ones `s3.cpp` uses, plus `NotFound` from the
spec's error taxonomy (§7), needed to state claims that mention it. -/

inductive ErrorCode where
  | S3Error
  | AWSWrongRegion
  | NotFound
  | TODO
  deriving Repr, DecidableEq

/-- Type `galois::Result<α>`: a value or an `ErrorCode`. -/
abbrev Result (α : Type) : Type := Except ErrorCode α

/-! ## Batched delete (`S3SendDelete` / `S3Delete`, s3.cpp 865-925) -/

/-- Function `S3SendDelete` (s3.cpp 865-888): issues one batched `DeleteObjects`
request for the accumulated keys; a failed remote outcome maps to
`ErrorCode::S3Error`. The remote outcome (its success flag) is an input. -/
def S3SendDelete (outcome : Bool) : Result Unit :=
  if outcome then .ok () else .error .S3Error

/-- Chunking `chunksOf k l`: `l` split into consecutive chunks of `k` elements each,
the last chunk possibly shorter (for `k ≥ 1`). -/
def chunksOf (k : Nat) : List α → List (List α)
  | [] => []
  | a :: l => (a :: l.take (k - 1)) :: chunksOf k (l.drop (k - 1))
termination_by l => l.length
decreasing_by
  simp only [List.length_drop, List.length_cons]
  omega

/-- The `for (file : files)` loop of `S3Delete` (s3.cpp 900-915) followed
by the final flush of a non-empty remainder batch (917-922).  State:
remaining files, `index`, the accumulated batch `aws_objs`, the number
`nsent` of batched requests already sent, the running result `res`, and the
log `sent` of batches sent so far.  `oracle n` is the remote outcome of the
`n`-th batched `DeleteObjects` request. -/
def S3DeleteGo (oracle : Nat → Bool) :
    List String → Nat → List String → Nat → Result Unit → List (List String) →
      Result Unit × List (List String)
  | [], _index, aws_objs, nsent, res, sent =>
    if aws_objs.length > 0 then
      (match S3SendDelete (oracle nsent) with
        | .error e => .error e
        | .ok _ => res,
       sent ++ [aws_objs])
    else
      (res, sent)
  | file :: files, index, aws_objs, nsent, res, sent =>
    if index ≠ 0 ∧ index % kS3MaxDelete = 0 then
      S3DeleteGo oracle files (index + 1) [file] (nsent + 1)
        (match S3SendDelete (oracle nsent) with
          | .error e => .error e
          | .ok _ => res)
        (sent ++ [aws_objs])
    else
      S3DeleteGo oracle files (index + 1) (aws_objs ++ [file]) nsent res sent

/-- Function `S3Delete` (s3.cpp 890-925).  `files` is the iteration order of the
caller's key set; the code joins each key with `object`
(`galois::JoinPath`), which does not change the batching structure, so the
keys are kept verbatim.  Returns the final result and the batches sent. -/
def S3Delete (oracle : Nat → Bool) (files : List String) :
    Result Unit × List (List String) :=
  if files.length = 0 then (.ok (), [])
  else S3DeleteGo oracle files 0 [] 0 (.ok ()) []

/-! ## Multipart completion manifest (s3.cpp 356-405 and 500-553) -/

/-- One manifest entry (`Aws::S3::Model::CompletedPart`): a 1-based part
number and the completion tag recorded for that part. -/
structure CompletedPart where
  partNumber : Nat
  eTag : String
  deriving Repr, DecidableEq

/-- The per-part upload callbacks of `S3UploadOverwrite` (s3.cpp 356-383)
and `S3PutMultiAsync2` (s3.cpp 500-521): the completion of part `i` stores
its ETag at index `i` of `part_e_tags`, whatever order completions arrive
in.  `arrivals` lists the `(index, tag)` completions in arrival order. -/
def applyCompletions (part_e_tags : List String)
    (arrivals : List (Nat × String)) : List String :=
  arrivals.foldl (fun acc p => acc.set p.1 p.2) part_e_tags

/-- The manifest loop of `S3UploadOverwrite` (s3.cpp 394-399) and
`S3PutMultiAsync3` (s3.cpp 536-541): entry `i` carries part number `i + 1`
and `part_e_tags[i]`. -/
def buildManifest (part_e_tags : List String) : List CompletedPart :=
  part_e_tags.enum.map fun p => { partNumber := p.1 + 1, eTag := p.2 }

/-! ## OpGroup (`ReadGroup`/`WriteGroup`, spec §4.4)

The `AsyncOpGroup` implementation is not under `src/`; only the
`ReadGroup` interface (`AddOp` FIFO guarantee) and a caller in
`HttpNameServerClient.cpp` are, so `Finish` is modelled from the spec. -/

/-- A tracked asynchronous operation: a debug label, the position of its
future's resolution in (wall-clock) arrival order, and the result the
future resolves with.  By the time the drain point blocks on an entry the
result is a value, so resolution order cannot influence draining. -/
structure TrackedOp where
  label : String
  resolveOrder : Nat
  result : Result Unit

/-- First error among the resolved results, in registration order. -/
def firstError : List TrackedOp → Result Unit
  | [] => .ok ()
  | op :: ops =>
    match op.result with
    | .error e => .error e
    | .ok _ => firstError ops

/-- Modelled from the spec: `AsyncOpGroup::Finish` (§4.4): drain the queue
strictly in FIFO registration order, blocking on each entry's future and
then invoking its continuation; surface an error but keep draining; report
the first error.  Returns the final result together with the labels in
continuation-invocation order. -/
def finishGroup (ops : List TrackedOp) : Result Unit × List String :=
  ops.foldl
    (fun acc op =>
      (match acc.1 with
        | .error e => .error e
        | .ok _ => op.result,
       acc.2 ++ [op.label]))
    (.ok (), [])

/-! ## Put routing (s3.cpp 293-303 and 622-657) -/

/-- A remote call issued by the upload paths. -/
inductive S3Call where
  | putObject (size : Nat)
  | createMultipartUpload
  | uploadPart (partNumber : Nat) (contentLength : Nat)
  | completeMultipartUpload (manifestLength : Nat)
  deriving Repr, DecidableEq

/-- The remote calls `S3UploadOverwrite` (s3.cpp 293-419) issues, in
program order: a size below `kS3DefaultBufSize` takes the single
synchronous `PutObject` path (`S3PutSingleSync`); otherwise the function
creates a multipart session, uploads one part per buffer segment (1-based
part numbers, each part's content length) and completes the session with
the full manifest.  `none` models the `SegmentBuf` assertion failing. -/
def S3UploadOverwriteCalls (size : Nat) : Option (List S3Call) :=
  if size < kS3DefaultBufSize then
    some [.putObject size]
  else
    match SegmentBuf 0 size with
    | none => none
    | some parts =>
      some (.createMultipartUpload ::
        ((parts.enum.map fun p =>
            S3Call.uploadPart (p.1 + 1) (p.2.stop - p.2.start)) ++
         [.completeMultipartUpload parts.length]))

/-- Which path a put takes. -/
inductive PutPath where
  | single
  | multipart
  deriving Repr, DecidableEq

/-- The routing decision of `S3PutAsync` (s3.cpp 622-657): the
`S3PutSingleAsync`/`S3PutSingleAsyncFinish` pair below `kS3DefaultBufSize`,
the `S3PutMultiAsync1/2/3/Finish` multipart session otherwise. -/
def S3PutAsyncPath (size : Nat) : PutPath :=
  if size < kS3DefaultBufSize then .single else .multipart

/-! ## HeadObject / S3GetSize (s3.cpp 161-173 and 221-244) -/

/-- A remote outcome as the AWS SDK presents it: a success flag, the HTTP
response code of the error (meaningful when not successful), and the
result payload. -/
structure S3Outcome (α : Type) where
  isSuccess : Bool
  responseCode : Nat
  result : α

/-- Function `CheckS3Error` (s3.cpp 161-173): success maps to success, a failure
with HTTP 301 (`MOVED_PERMANENTLY`) to `ErrorCode::AWSWrongRegion`, and any
other failure — including 404 for a missing object — to
`ErrorCode::S3Error`. -/
def CheckS3Error (outcome : S3Outcome α) : Result Unit :=
  if outcome.isSuccess then .ok ()
  else if outcome.responseCode = 301 then .error .AWSWrongRegion
  else .error .S3Error

/-- A `HeadObject` request. -/
structure HeadObjectRequest where
  bucket : String
  key : String
  deriving Repr, DecidableEq

/-- Function `S3GetSize` (s3.cpp 221-244): issues a single synchronous `HeadObject`
request; on success returns the reported content length, otherwise returns
the error from `CheckS3Error` (an `S3Error` outcome is merely debug-logged
because "this is S3Stat, which can legitimately be called on a non-existent
file").  `respond` is the remote's response; the second component lists the
requests issued. -/
def S3GetSize (bucket object : String)
    (respond : HeadObjectRequest → S3Outcome Nat) :
    Result Nat × List HeadObjectRequest :=
  (match CheckS3Error (respond { bucket := bucket, key := object }) with
    | .error e => .error e
    | .ok _ => .ok (respond { bucket := bucket, key := object }).result,
   [{ bucket := bucket, key := object }])

/-! ## Ranged download (s3.cpp 659-746) -/

/-- A ranged `GetObject` request as `PrepareObjectRequest` builds it:
bucket, key, the `Range` header string, and the size in bytes of the
preallocated response buffer. -/
structure GetObjectRequest where
  bucket : String
  key : String
  range : String
  bufLen : Nat
  deriving Repr, DecidableEq

/-- Function `PrepareObjectRequest` (s3.cpp 659-679): sets bucket and key, writes
the range header `bytes=<start>-<end - 1>` ("knock one byte off the end
because range in AWS S3 API is inclusive") and preallocates a response
stream of `part.end - part.start + 1` bytes over the destination. -/
def PrepareObjectRequest (bucket object : String) (part : BufPart) :
    GetObjectRequest :=
  { bucket := bucket
    key := object
    range := "bytes=" ++ toString part.start ++ "-" ++ toString (part.stop - 1)
    bufLen := part.stop - part.start + 1 }

/-- One byte-write into the destination buffer: the response for absolute
offset `j` of the object lands at buffer index `j - base` (the part's
`dest` pointer is the destination buffer offset by `part.start - base`). -/
def writePart (respond : Nat → Nat) (base : Nat) (part : BufPart)
    (buf : List Nat) : List Nat :=
  (List.range (part.stop - part.start)).foldl
    (fun b j => b.set (part.start - base + j) (respond (part.start + j))) buf

/-- Function `S3GetAsync` (s3.cpp 726-746) on top of `S3GetMultiAsync`
(s3.cpp 681-717): a zero `size` returns success immediately — no request
is formed, the destination buffer is untouched, and no asynchronous work
handle (`FileAsyncWork`) is produced (`none`).  Otherwise the buffer is
segmented, one ranged `GetObject` request is issued per part and the
responses are written into the destination; the work handle carries the
issued requests.  The outer `none` models the `SegmentBuf` assertion
failing; `respond` gives the remote byte at each absolute offset. -/
def S3GetAsync (bucket object : String) (start size : Nat) (buf : List Nat)
    (respond : Nat → Nat) :
    Option (Result Unit × Option (List GetObjectRequest) × List Nat) :=
  if size = 0 then
    some (.ok (), none, buf)
  else
    match SegmentBuf start size with
    | none => none
    | some parts =>
      some (.ok (),
        some (parts.map (PrepareObjectRequest bucket object)),
        parts.foldl (fun b p => writePart respond start p b) buf)

/-! ## Paged listing (`S3ListAsync`, s3.cpp 819-863) -/

/-- One page of a `ListObjectsV2` response: the returned keys, the
truncation flag and the next continuation token.  Keys and tokens are
character lists (C++ `std::string`). -/
structure ListPage where
  contents : List (List Char)
  isTruncated : Bool
  nextToken : List Char
  deriving Repr, DecidableEq

/-- The per-key processing of `S3ListAsync` (s3.cpp 844-851): assert that
the first occurrence of the prefix `object` in the key is at position 0
(equivalently, `object` is a prefix of the key) and that the character
right after the prefix is `'/'` (for a key equal to `object`,
`short_name[object.length()]` reads the terminating NUL and the assert
fails; modelled by `[·]?` returning `none`), then erase the prefix and the
separator (`erase(0, object.length() + 1)`).  `none` models a
`GALOIS_LOG_ASSERT` failure. -/
def listShortName (object key : List Char) : Option (List Char) :=
  if object.isPrefixOf key ∧ key[object.length]? = some '/' then
    some (key.drop (object.length + 1))
  else none

/-- The `for (content : s3result.GetContents())` loop (s3.cpp 844-851):
process each returned key, inserting its short name into the set. -/
def processContents (object : List Char) :
    List (List Char) → List (List Char) → Option (List (List Char))
  | [], acc => some acc
  | key :: rest, acc =>
    match listShortName object key with
    | none => none
    | some short => processContents object rest (acc.insert short)

/-- Outcome of the listing loop: the accumulated set together with the
number of pages consumed, an assertion failure, or an environment that did
not supply a response for an issued request. -/
inductive ListOutcome where
  | ok (names : List (List Char)) (pagesUsed : Nat)
  | assertFail
  | outOfPages
  deriving Repr, DecidableEq

/-- The `do … while (token.size() > 0)` pagination loop of `S3ListAsync`
(s3.cpp 826-860): process the current page; if the response is truncated,
assert the continuation token is non-empty and continue with the next
response, else stop.  `pages` are the successive remote responses. -/
def S3ListGo (object : List Char) :
    List ListPage → List (List Char) → ListOutcome
  | [], _acc => .outOfPages
  | page :: pages, acc =>
    match processContents object page.contents acc with
    | none => .assertFail
    | some next =>
      if page.isTruncated then
        if page.nextToken.length > 0 then
          match S3ListGo object pages next with
          | .ok names used => .ok names (used + 1)
          | other => other
        else .assertFail
      else .ok next 1

/-- Function `S3ListAsync` (s3.cpp 819-863): run the pagination loop starting from
the caller-provided (empty) set. -/
def S3ListAsync (object : List Char) (pages : List ListPage) : ListOutcome :=
  S3ListGo object pages []

/-- Remote responses used by the C10 witness: a truncated first page with a
continuation token, then a final page. -/
def pageListA : ListPage :=
  { contents := [['a', '/', 'x']], isTruncated := true, nextToken := ['t'] }

def pageListB : ListPage :=
  { contents := [['a', '/', 'y']], isTruncated := false, nextToken := [] }

def pageListBad : ListPage :=
  { contents := [['b', 'x']], isTruncated := false, nextToken := [] }

def pageListEmptyTok : ListPage :=
  { contents := [], isTruncated := true, nextToken := [] }

/-! ## Theorems -/

/-! ### Arithmetic facts about `numSegments` -/

theorem lt_numSegments_iff {size seg : Nat} (hseg : 0 < seg) (i : Nat) :
    i < numSegments size seg ↔ i * seg < size := by
  unfold numSegments
  rw [Nat.lt_iff_add_one_le, Nat.le_div_iff_mul_le hseg]
  constructor
  · intro h
    have h' : i * seg + seg ≤ size + seg - 1 := by
      have : (i + 1) * seg = i * seg + seg := by ring
      omega
    omega
  · intro h
    have : (i + 1) * seg = i * seg + seg := by ring
    omega

theorem size_le_numSegments_mul {size seg : Nat} (hseg : 0 < seg) :
    size ≤ numSegments size seg * seg := by
  by_contra h
  push_neg at h
  exact absurd ((lt_numSegments_iff hseg _).mpr h) (lt_irrefl _)

theorem numSegments_pos {size seg : Nat} (hseg : 0 < seg) (hsize : 0 < size) :
    0 < numSegments size seg := by
  rw [lt_numSegments_iff hseg]
  simpa using hsize

theorem segmentParts_length (start size seg : Nat) :
    (segmentParts start size seg).length = numSegments size seg := by
  simp [segmentParts]

theorem segmentParts_get? {start size seg : Nat} {i : Nat}
    (hi : i < numSegments size seg) :
    (segmentParts start size seg)[i]? =
      some { start := start + i * seg
             stop := start + min size ((i + 1) * seg) } := by
  simp [segmentParts, List.getElem?_map, List.getElem?_range hi]

theorem segmentParts_sum (start size seg : Nat) (hseg : 0 < seg) :
    ((segmentParts start size seg).map fun p => p.stop - p.start).sum = size := by
  have key : ∀ n : Nat, n ≤ numSegments size seg →
      (((List.range n).map fun i =>
        (start + min size ((i + 1) * seg)) - (start + i * seg)).sum =
        min size (n * seg)) := by
    intro n
    induction n with
    | zero => simp
    | succ m ih =>
      intro hm
      rw [List.range_succ, List.map_append, List.sum_append]
      have hmlt : m < numSegments size seg := lt_of_lt_of_le (Nat.lt_succ_self m) hm
      have hms : m * seg < size := (lt_numSegments_iff hseg m).mp hmlt
      have hmin : min size (m * seg) = m * seg := min_eq_right (le_of_lt hms)
      rw [ih (le_of_lt hmlt)]
      simp only [List.map_cons, List.map_nil, List.sum_cons, List.sum_nil]
      have h1 : m * seg ≤ min size ((m + 1) * seg) := by
        rcases Nat.lt_or_ge size ((m + 1) * seg) with h | h
        · simpa [min_eq_left (le_of_lt h)] using le_of_lt hms
        · have : m * seg ≤ (m + 1) * seg := by nlinarith
          simpa [min_eq_right h] using this
      omega
  have hge : size ≤ numSegments size seg * seg := size_le_numSegments_mul hseg
  unfold segmentParts
  rw [List.map_map]
  exact (key (numSegments size seg) (le_refl _)).trans (min_eq_left hge)

/-- C1: for every range with `size > 0` and every (positive) segment size,
the part sequence produced by the segment-view build is contiguous,
non-overlapping and exactly covers `[start, start+size)`: the sequence is
non-empty, every part has `start < end`, each part's `end` is the next
part's `start`, the first part starts at `start`, the last part ends at
`start + size`, and the parts' byte lengths sum to `size`. -/
theorem segmentParts_exact_cover (st size seg : Nat)
    (hsize : 0 < size) (hseg : 0 < seg) :
    segmentParts st size seg ≠ [] ∧
    (∀ p ∈ segmentParts st size seg, p.start < p.stop) ∧
    (∀ i p q, (segmentParts st size seg)[i]? = some p →
      (segmentParts st size seg)[i + 1]? = some q → p.stop = q.start) ∧
    (∀ p, (segmentParts st size seg).head? = some p → p.start = st) ∧
    (∀ p, (segmentParts st size seg).getLast? = some p → p.stop = st + size) ∧
    ((segmentParts st size seg).map fun p => p.stop - p.start).sum = size := by
  have hn : 0 < numSegments size seg := numSegments_pos hseg hsize
  have hlen : (segmentParts st size seg).length = numSegments size seg :=
    segmentParts_length st size seg
  refine ⟨?_, ?_, ?_, ?_, ?_, segmentParts_sum st size seg hseg⟩
  · intro h
    rw [← List.length_eq_zero] at h
    omega
  · intro p hp
    simp only [segmentParts, List.mem_map, List.mem_range] at hp
    obtain ⟨i, hi, rfl⟩ := hp
    have h1 : i * seg < size := (lt_numSegments_iff hseg i).mp hi
    have h2 : i * seg < (i + 1) * seg := by nlinarith
    simp only []
    have : i * seg < min size ((i + 1) * seg) := lt_min h1 h2
    omega
  · intro i p q hp hq
    have hi1 : i + 1 < numSegments size seg := by
      obtain ⟨hlt, -⟩ := List.getElem?_eq_some.mp hq
      rwa [hlen] at hlt
    have hi : i < numSegments size seg := by omega
    rw [segmentParts_get? hi] at hp
    rw [segmentParts_get? hi1] at hq
    have hlt : (i + 1) * seg < size := (lt_numSegments_iff hseg (i + 1)).mp hi1
    have hp' := Option.some.inj hp
    have hq' := Option.some.inj hq
    rw [← hp', ← hq']
    simp [min_eq_right (le_of_lt hlt)]
  · intro p hp
    rw [List.head?_eq_getElem?, segmentParts_get? hn] at hp
    have := Option.some.inj hp
    rw [← this]
    simp
  · intro p hp
    rw [List.getLast?_eq_getElem?, hlen] at hp
    have hidx : numSegments size seg - 1 < numSegments size seg := by omega
    rw [segmentParts_get? hidx] at hp
    have := Option.some.inj hp
    rw [← this]
    have hsucc : numSegments size seg - 1 + 1 = numSegments size seg := by omega
    have hge : size ≤ numSegments size seg * seg := size_le_numSegments_mul hseg
    simp only [hsucc]
    rw [min_eq_left hge]

/-- Witness for C1 at `start = 100`, `size = 20`, `segment_size = 8`. -/
theorem segmentParts_exact_cover_witness :
    segmentParts 100 20 8 ≠ [] ∧
    (∀ p ∈ segmentParts 100 20 8, p.start < p.stop) ∧
    (∀ i p q, (segmentParts 100 20 8)[i]? = some p →
      (segmentParts 100 20 8)[i + 1]? = some q → p.stop = q.start) ∧
    (∀ p, (segmentParts 100 20 8).head? = some p → p.start = 100) ∧
    (∀ p, (segmentParts 100 20 8).getLast? = some p → p.stop = 100 + 20) ∧
    ((segmentParts 100 20 8).map fun p => p.stop - p.start).sum = 20 :=
  segmentParts_exact_cover 100 20 8 (by decide) (by decide)

/-! ### C3: the enlarged-segment branch of `SegmentBuf` -/

/-- Whenever the enlarged-segment branch of `SegmentBuf` is taken and its
size assertion passes, the produced part count strictly exceeds
`kS3MaxMultiPart`: `segment_size = size / (kS3MaxMultiPart + 1)` is a floor
division, so `kS3MaxMultiPart` segments of that size cannot cover `size`
bytes. -/
theorem SegmentBuf_branch_count_exceeds (start size : Nat)
    (hbranch : size / kS3DefaultBufSize > kS3MaxMultiPart)
    (hassert : kS3MinBufSize < size / (kS3MaxMultiPart + 1) ∧
      size / (kS3MaxMultiPart + 1) < kS3MaxBufSize) :
    SegmentBuf start size =
      some (segmentParts start size (size / (kS3MaxMultiPart + 1))) ∧
    kS3MaxMultiPart <
      (segmentParts start size (size / (kS3MaxMultiPart + 1))).length := by
  constructor
  · unfold SegmentBuf
    rw [if_pos hbranch, if_pos hassert]
  · rw [segmentParts_length]
    set q := size / (kS3MaxMultiPart + 1) with hq
    have hqpos : 0 < q := lt_trans (by decide : (0:Nat) < kS3MinBufSize) hassert.1
    rw [lt_numSegments_iff hqpos]
    have hmul : (kS3MaxMultiPart + 1) * q ≤ size := by
      rw [hq, Nat.mul_comm]
      exact Nat.div_mul_le_self size (kS3MaxMultiPart + 1)
    calc kS3MaxMultiPart * q < (kS3MaxMultiPart + 1) * q := by nlinarith
      _ ≤ size := hmul

set_option maxRecDepth 4000 in
/-- C3 (refuting the silent-part-count conjunct): at
`size = 10001 * kS3DefaultBufSize = 83894468608` bytes the enlarged-segment
branch of `SegmentBuf` is taken, the adjusted segment size
(`8388608 = kS3DefaultBufSize`) passes the min/max assertion, yet the call
silently returns `10001` parts — strictly more than
`kS3MaxMultiPart = 10000`. -/
theorem SegmentBuf_part_count_bug :
    (SegmentBuf 0 83894468608).map List.length = some 10001 ∧
    kS3MaxMultiPart < 10001 := by
  have hbranch : 83894468608 / kS3DefaultBufSize > kS3MaxMultiPart := by decide
  have hassert : kS3MinBufSize < 83894468608 / (kS3MaxMultiPart + 1) ∧
      83894468608 / (kS3MaxMultiPart + 1) < kS3MaxBufSize := by decide
  obtain ⟨heq, -⟩ :=
    SegmentBuf_branch_count_exceeds 0 83894468608 hbranch hassert
  refine ⟨?_, by decide⟩
  rw [heq, Option.map_some', segmentParts_length]
  decide

theorem chunksOf_flatten (k : Nat) (l : List α) :
    (chunksOf k l).flatten = l := by
  induction l using chunksOf.induct k with
  | case1 => simp [chunksOf]
  | case2 a t ih =>
    simp only [chunksOf, List.flatten_cons, ih]
    rw [List.cons_append, List.take_append_drop]

theorem chunksOf_sizes {k : Nat} (hk : 0 < k) (l : List α) :
    ∀ b ∈ chunksOf k l, 0 < b.length ∧ b.length ≤ k := by
  induction l using chunksOf.induct k with
  | case1 => simp [chunksOf]
  | case2 a t ih =>
    intro b hb
    simp only [chunksOf, List.mem_cons] at hb
    rcases hb with rfl | hb
    · constructor
      · simp
      · simp only [List.length_cons, List.length_take]
        omega
    · exact ih b hb

theorem chunksOf_ne_nil {k : Nat} {l : List α} (h : l ≠ []) :
    chunksOf k l ≠ [] := by
  cases l with
  | nil => exact absurd rfl h
  | cons a t => simp [chunksOf]

theorem chunksOf_eq_single {k : Nat} {l : List α}
    (hne : l ≠ []) (hlen : l.length ≤ k) : chunksOf k l = [l] := by
  cases l with
  | nil => exact absurd rfl hne
  | cons a t =>
    simp only [List.length_cons] at hlen
    rw [chunksOf]
    rw [List.take_of_length_le (by omega), List.drop_eq_nil_of_le (by omega)]
    simp [chunksOf]

theorem chunksOf_append {k : Nat} {l : List α} (r : List α)
    (hlen : l.length = k) (hk : 0 < k) :
    chunksOf k (l ++ r) = l :: chunksOf k r := by
  cases l with
  | nil => simp at hlen; omega
  | cons a t =>
    simp only [List.length_cons] at hlen
    rw [List.cons_append, chunksOf]
    have ht : t.length = k - 1 := by omega
    rw [← ht, List.take_left, List.drop_left]

theorem chunksOf_length_995 (l : List α) (hne : l ≠ []) :
    (chunksOf 995 l).length = (l.length + 994) / 995 := by
  induction l using chunksOf.induct 995 with
  | case1 => exact absurd rfl hne
  | case2 a t ih =>
    rw [chunksOf]
    by_cases hd : t.drop (995 - 1) = []
    · rw [hd]
      simp only [chunksOf, List.length_cons, List.length_nil]
      have : t.length ≤ 994 := by
        have := List.drop_eq_nil_iff.mp hd
        omega
      omega
    · rw [List.length_cons, ih hd]
      have hlen : (t.drop (995 - 1)).length = t.length - 994 := by
        simp [List.length_drop]
      have ht : 994 < t.length := by
        by_contra h
        exact hd (List.drop_eq_nil_of_le (by omega))
      rw [hlen, List.length_cons]
      omega

theorem chunksOf_getLast_995 (l : List α) :
    ∀ b, (chunksOf 995 l).getLast? = some b →
      b.length = (l.length - 1) % 995 + 1 := by
  induction l using chunksOf.induct 995 with
  | case1 => intro b hb; simp [chunksOf] at hb
  | case2 a t ih =>
    intro b hb
    rw [chunksOf] at hb
    by_cases hd : t.drop (995 - 1) = []
    · rw [hd] at hb
      simp only [chunksOf, List.getLast?_singleton, Option.some.injEq] at hb
      have hle : t.length ≤ 994 := by
        have := List.drop_eq_nil_iff.mp hd
        omega
      have htake : t.take (995 - 1) = t := List.take_of_length_le (by omega)
      rw [htake] at hb
      rw [← hb]
      simp only [List.length_cons]
      omega
    · have hcne : chunksOf 995 (t.drop (995 - 1)) ≠ [] := chunksOf_ne_nil hd
      obtain ⟨c, cs, hcs⟩ : ∃ c cs, chunksOf 995 (t.drop (995 - 1)) = c :: cs :=
        List.exists_cons_of_ne_nil hcne
      rw [hcs, List.getLast?_cons_cons] at hb
      rw [← hcs] at hb
      have := ih b hb
      have ht : 994 < t.length := by
        by_contra h
        exact hd (List.drop_eq_nil_of_le (by omega))
      rw [List.length_drop] at this
      rw [List.length_cons]
      omega

/-- Characterization of the delete loop: under the loop invariant relating
`index` and the accumulated batch length, the loop sends exactly the
`kS3MaxDelete`-chunks of `aws_objs ++ files`, and the result is the running
`res` unless some batch fails, in which case it is `ErrorCode.S3Error`. -/
theorem S3DeleteGo_spec (oracle : Nat → Bool) :
    ∀ (files : List String) (index : Nat) (aws_objs : List String)
      (nsent : Nat) (res : Result Unit) (sent : List (List String)),
      aws_objs.length =
        (if index = 0 then 0 else (index - 1) % kS3MaxDelete + 1) →
      S3DeleteGo oracle files index aws_objs nsent res sent =
        ((if (List.range (chunksOf kS3MaxDelete (aws_objs ++ files)).length).all
              (fun i => oracle (nsent + i))
          then res else .error .S3Error),
         sent ++ chunksOf kS3MaxDelete (aws_objs ++ files)) := by
  intro files
  induction files with
  | nil =>
    intro index aws_objs nsent res sent hinv
    rw [S3DeleteGo, List.append_nil]
    by_cases hobj : aws_objs = []
    · subst hobj
      simp [chunksOf]
    · have hlen : 0 < aws_objs.length := List.length_pos.mpr hobj
      rw [if_pos hlen]
      have hle : aws_objs.length ≤ kS3MaxDelete := by
        rw [hinv]
        split
        · omega
        · have : (index - 1) % kS3MaxDelete < kS3MaxDelete :=
            Nat.mod_lt _ (by simp [kS3MaxDelete])
          omega
      rw [chunksOf_eq_single hobj hle]
      simp only [List.length_cons, List.length_nil, List.range_succ,
        List.range_zero, List.nil_append, List.all_cons, List.all_nil,
        Bool.and_true, Nat.add_zero]
      cases h : oracle nsent <;> simp [S3SendDelete, h]
  | cons f fs ih =>
    intro index aws_objs nsent res sent hinv
    rw [S3DeleteGo]
    by_cases hc : index ≠ 0 ∧ index % kS3MaxDelete = 0
    · rw [if_pos hc]
      obtain ⟨h0, hmod⟩ := hc
      have hobjlen : aws_objs.length = kS3MaxDelete := by
        rw [hinv, if_neg h0]
        simp only [kS3MaxDelete] at hmod ⊢
        omega
      have hinv' : ([f] : List String).length =
          (if index + 1 = 0 then 0 else (index + 1 - 1) % kS3MaxDelete + 1) := by
        simp only [List.length_cons, List.length_nil,
          if_neg (Nat.succ_ne_zero index), Nat.add_sub_cancel, hmod]
      rw [ih (index + 1) [f] (nsent + 1) _ _ hinv']
      have hchunks : chunksOf kS3MaxDelete (aws_objs ++ f :: fs) =
          aws_objs :: chunksOf kS3MaxDelete (f :: fs) :=
        chunksOf_append (f :: fs) hobjlen (by simp [kS3MaxDelete])
      rw [hchunks]
      simp only [List.singleton_append, List.length_cons,
        List.range_succ_eq_map, List.all_cons, List.all_map,
        Function.comp_def, Nat.add_zero, Nat.succ_eq_add_one]
      have hidx : (fun i => oracle (nsent + (i + 1))) =
          (fun i => oracle (nsent + 1 + i)) := by
        funext i
        congr 1
        omega
      rw [hidx]
      cases h : oracle nsent with
      | true =>
        simp [S3SendDelete, h]
      | false =>
        simp [S3SendDelete, h, ite_self]
    · rw [if_neg hc]
      have hinv' : (aws_objs ++ [f]).length =
          (if index + 1 = 0 then 0 else (index + 1 - 1) % kS3MaxDelete + 1) := by
        push_neg at hc
        rw [List.length_append, hinv]
        simp only [List.length_cons, List.length_nil,
          if_neg (Nat.succ_ne_zero index), Nat.add_sub_cancel]
        by_cases h0 : index = 0
        · subst h0
          simp [kS3MaxDelete]
        · have hmod : index % kS3MaxDelete ≠ 0 := hc h0
          rw [if_neg h0]
          simp only [kS3MaxDelete] at *
          omega
      rw [ih (index + 1) (aws_objs ++ [f]) nsent res sent hinv']
      rw [List.append_assoc]
      rfl

/-- C2: for every non-empty key sequence, `S3Delete` partitions the keys
into consecutive batches each of at most `kS3MaxDelete` keys (so with
`2 * kS3MaxDelete + 1` keys there are `(n + kS3MaxDelete - 1)/kS3MaxDelete
= 3` batches, the last of size `(n-1) % kS3MaxDelete + 1 = 1`); the batches
issued do not depend on the remote outcomes (every batch is sent even after
an earlier batch fails); and the returned result is a success iff every
batch succeeded, and otherwise is exactly the error of the first failing
batch (`ErrorCode.S3Error`, as produced by `S3SendDelete`). -/
theorem S3Delete_batching (oracle : Nat → Bool) (files : List String)
    (hne : files ≠ []) :
    (S3Delete oracle files).2.flatten = files ∧
    (∀ b ∈ (S3Delete oracle files).2, 0 < b.length ∧ b.length ≤ kS3MaxDelete) ∧
    (S3Delete oracle files).2.length =
      (files.length + kS3MaxDelete - 1) / kS3MaxDelete ∧
    (∀ b, (S3Delete oracle files).2.getLast? = some b →
      b.length = (files.length - 1) % kS3MaxDelete + 1) ∧
    (∀ oracle' : Nat → Bool,
      (S3Delete oracle' files).2 = (S3Delete oracle files).2) ∧
    ((S3Delete oracle files).1 = .ok () ↔
      ∀ i, i < (S3Delete oracle files).2.length → oracle i = true) ∧
    (∀ i, i < (S3Delete oracle files).2.length → oracle i = false →
      (∀ j, j < i → oracle j = true) →
      (S3Delete oracle files).1 = S3SendDelete (oracle i)) := by
  have hlen0 : ¬files.length = 0 := by
    simpa [List.length_eq_zero] using hne
  have hchar : ∀ or_ : Nat → Bool,
      S3Delete or_ files =
        ((if (List.range (chunksOf kS3MaxDelete files).length).all or_
          then (.ok () : Result Unit) else .error .S3Error),
         chunksOf kS3MaxDelete files) := by
    intro or_
    rw [S3Delete, if_neg hlen0,
      S3DeleteGo_spec or_ files 0 [] 0 (.ok ()) [] (by simp)]
    simp only [List.nil_append, Nat.zero_add]
  have hsnd : (S3Delete oracle files).2 = chunksOf kS3MaxDelete files := by
    rw [hchar oracle]
  have hfst : (S3Delete oracle files).1 =
      (if (List.range (chunksOf kS3MaxDelete files).length).all oracle
        then (.ok () : Result Unit) else .error .S3Error) := by
    rw [hchar oracle]
  refine ⟨?_, ?_, ?_, ?_, ?_, ?_, ?_⟩
  · rw [hsnd]
    exact chunksOf_flatten _ _
  · rw [hsnd]
    exact chunksOf_sizes (by simp [kS3MaxDelete]) files
  · rw [hsnd]
    simp only [kS3MaxDelete]
    exact chunksOf_length_995 files hne
  · rw [hsnd]
    simp only [kS3MaxDelete]
    exact chunksOf_getLast_995 files
  · intro oracle'
    rw [hchar oracle', hchar oracle]
  · rw [hfst, hsnd]
    by_cases hall : (List.range (chunksOf kS3MaxDelete files).length).all oracle
    · rw [if_pos hall]
      simp only [List.all_eq_true, List.mem_range] at hall
      exact ⟨fun _ i hi => hall i hi, fun _ => rfl⟩
    · rw [if_neg hall]
      constructor
      · intro h
        exact absurd h (by simp)
      · intro h
        have hcontra :
            (List.range (chunksOf kS3MaxDelete files).length).all oracle = true := by
          simp only [List.all_eq_true, List.mem_range]
          exact fun i hi => h i hi
        exact absurd hcontra hall
  · intro i hi hfail _hfirst
    rw [hfst]
    rw [hsnd] at hi
    have hnall : ¬(List.range (chunksOf kS3MaxDelete files).length).all oracle := by
      simp only [List.all_eq_true, List.mem_range]
      intro h
      rw [h i hi] at hfail
      exact Bool.noConfusion hfail
    rw [if_neg hnall, S3SendDelete, hfail]
    rfl

/-- Witness for C2, at a key list of `2 * kS3MaxDelete + 1 = 1991` keys with
a remote that fails exactly the second batch. -/
theorem S3Delete_batching_witness :
    (S3Delete (fun i => !(i == 1)) (List.replicate 1991 ("key"))).2.flatten =
      List.replicate 1991 ("key") ∧
    (∀ b ∈ (S3Delete (fun i => !(i == 1)) (List.replicate 1991 ("key"))).2,
      0 < b.length ∧ b.length ≤ kS3MaxDelete) ∧
    (S3Delete (fun i => !(i == 1)) (List.replicate 1991 ("key"))).2.length =
      ((List.replicate 1991 ("key")).length + kS3MaxDelete - 1) / kS3MaxDelete ∧
    (∀ b, (S3Delete (fun i => !(i == 1))
        (List.replicate 1991 ("key"))).2.getLast? = some b →
      b.length = ((List.replicate 1991 ("key")).length - 1) % kS3MaxDelete + 1) ∧
    (∀ oracle' : Nat → Bool,
      (S3Delete oracle' (List.replicate 1991 ("key"))).2 =
        (S3Delete (fun i => !(i == 1)) (List.replicate 1991 ("key"))).2) ∧
    ((S3Delete (fun i => !(i == 1)) (List.replicate 1991 ("key"))).1 = .ok () ↔
      ∀ i, i < (S3Delete (fun i => !(i == 1))
        (List.replicate 1991 ("key"))).2.length → (!(i == 1)) = true) ∧
    (∀ i, i < (S3Delete (fun i => !(i == 1))
        (List.replicate 1991 ("key"))).2.length → (!(i == 1)) = false →
      (∀ j, j < i → (!(j == 1)) = true) →
      (S3Delete (fun i => !(i == 1)) (List.replicate 1991 ("key"))).1 =
        S3SendDelete (!(i == 1))) :=
  S3Delete_batching (fun i => !(i == 1)) (List.replicate 1991 ("key"))
    (List.length_pos.mp (by rw [List.length_replicate]; omega))

theorem applyCompletions_length (arrivals : List (Nat × String)) :
    ∀ acc, (applyCompletions acc arrivals).length = acc.length := by
  induction arrivals with
  | nil => intro acc; rfl
  | cons q l ih =>
    intro acc
    unfold applyCompletions at ih ⊢
    rw [List.foldl_cons, ih]
    exact List.length_set acc q.1 q.2

theorem applyCompletions_not_written (arrivals : List (Nat × String)) :
    ∀ (acc : List String) (i : Nat), (∀ p ∈ arrivals, p.1 ≠ i) →
      (applyCompletions acc arrivals)[i]? = acc[i]? := by
  induction arrivals with
  | nil => intro acc i _; rfl
  | cons q l ih =>
    intro acc i hne
    unfold applyCompletions at ih ⊢
    rw [List.foldl_cons, ih _ _ fun p hp => hne p (List.mem_cons_of_mem q hp)]
    exact List.getElem?_set_ne (hne q (List.mem_cons_self q l))

theorem applyCompletions_written (arrivals : List (Nat × String)) :
    ∀ (acc : List String) (i : Nat) (v : String),
      (arrivals.map Prod.fst).Nodup → (i, v) ∈ arrivals → i < acc.length →
      (applyCompletions acc arrivals)[i]? = some v := by
  induction arrivals with
  | nil =>
    intro acc i v _ hmem
    exact absurd hmem (List.not_mem_nil _)
  | cons q l ih =>
    intro acc i v hnd hmem hlt
    rw [List.map_cons, List.nodup_cons] at hnd
    rcases List.mem_cons.mp hmem with rfl | hmem'
    · unfold applyCompletions
      rw [List.foldl_cons]
      have hni : ∀ p ∈ l, p.1 ≠ i := by
        intro p hp heq
        have hin : p.1 ∈ l.map Prod.fst := List.mem_map_of_mem Prod.fst hp
        rw [heq] at hin
        exact hnd.1 hin
      rw [show List.foldl (fun acc p => acc.set p.1 p.2) (acc.set i v) l =
          applyCompletions (acc.set i v) l from rfl]
      rw [applyCompletions_not_written l (acc.set i v) i hni]
      exact List.getElem?_set_self (by simpa using hlt)
    · unfold applyCompletions
      rw [List.foldl_cons]
      exact ih (acc.set q.1 q.2) i v hnd.2 hmem' (by simpa using hlt)

theorem buildManifest_get? (part_e_tags : List String) (i : Nat) :
    (buildManifest part_e_tags)[i]? =
      part_e_tags[i]?.map fun t => { partNumber := i + 1, eTag := t } := by
  unfold buildManifest
  rw [List.getElem?_map, List.getElem?_enum]
  cases part_e_tags[i]? <;> rfl

/-- C4: for a multipart upload of `n` parts whose completions (part index
with its ETag) arrive in an arbitrary order — any permutation of
`(0, tag 0), …, (n-1, tag (n-1))` — the completion manifest built after all
callbacks have run has exactly `n` entries, and entry `i` carries part
number `i + 1` with the tag recorded for part `i`. -/
theorem manifest_ordered_by_part_number (n : Nat) (tag : Nat → String)
    (arrivals : List (Nat × String))
    (hperm : arrivals.Perm ((List.range n).map fun i => (i, tag i))) :
    (buildManifest (applyCompletions (List.replicate n ("")) arrivals)).length = n ∧
    ∀ i, i < n →
      (buildManifest (applyCompletions (List.replicate n ("")) arrivals))[i]? =
        some { partNumber := i + 1, eTag := tag i } := by
  have hnd : (arrivals.map Prod.fst).Nodup := by
    have hmapped : (arrivals.map Prod.fst).Perm
        (((List.range n).map fun i => (i, tag i)).map Prod.fst) :=
      hperm.map Prod.fst
    rw [List.map_map] at hmapped
    have hid : (Prod.fst ∘ fun i : Nat => (i, tag i)) = id := rfl
    rw [hid, List.map_id] at hmapped
    exact hmapped.nodup_iff.mpr (List.nodup_range n)
  constructor
  · unfold buildManifest
    rw [List.length_map, List.enum_length,
      applyCompletions_length arrivals (List.replicate n ("")), List.length_replicate]
  · intro i hi
    rw [buildManifest_get?]
    have hmem : (i, tag i) ∈ arrivals := by
      rw [hperm.mem_iff]
      exact List.mem_map_of_mem _ (List.mem_range.mpr hi)
    rw [applyCompletions_written arrivals (List.replicate n ("")) i (tag i) hnd hmem
      (by rwa [List.length_replicate])]
    rfl

/-- Witness for C4 at `n = 3` with completions arriving in order 2, 0, 1. -/
theorem manifest_ordered_by_part_number_witness :
    (buildManifest (applyCompletions (List.replicate 3 (""))
      [(2, "t2"), (0, "t0"), (1, "t1")])).length = 3 ∧
    ∀ i, i < 3 →
      (buildManifest (applyCompletions (List.replicate 3 (""))
        [(2, "t2"), (0, "t0"), (1, "t1")]))[i]? =
        some { partNumber := i + 1,
               eTag := (fun i => "t" ++ toString i) i } :=
  manifest_ordered_by_part_number 3 (fun i => "t" ++ toString i)
    [(2, "t2"), (0, "t0"), (1, "t1")] (by decide)

theorem finishGroup_foldl (ops : List TrackedOp) :
    ∀ (r : Result Unit) (l : List String),
      ops.foldl
        (fun acc op =>
          (match acc.1 with
            | .error e => .error e
            | .ok _ => op.result,
           acc.2 ++ [op.label])) (r, l) =
      ((match r with
        | .error e => .error e
        | .ok _ => firstError ops),
       l ++ ops.map TrackedOp.label) := by
  induction ops with
  | nil =>
    intro r l
    rcases r with e | u
    · simp
    · cases u
      simp [firstError]
  | cons op ops ih =>
    intro r l
    rw [List.foldl_cons, ih]
    rcases r with e | u
    · simp
    · cases u
      rcases h : op.result with e | u'
      · simp [firstError, h]
      · cases u'
        simp [firstError, h]

theorem firstError_ok_iff (ops : List TrackedOp) :
    firstError ops = .ok () ↔ ∀ op ∈ ops, op.result = .ok () := by
  induction ops with
  | nil => simp [firstError]
  | cons op ops ih =>
    rw [firstError]
    rcases h : op.result with e | u
    · simp only [List.mem_cons]
      constructor
      · intro hcontra
        exact absurd hcontra (by simp)
      · intro hall
        rw [hall op (Or.inl rfl)] at h
        exact absurd h (by simp)
    · cases u
      simp only [List.mem_cons, ih]
      constructor
      · intro hall q hq
        rcases hq with rfl | hq
        · exact h
        · exact hall q hq
      · intro hall q hq
        exact hall q (Or.inr hq)

theorem firstError_eq_first (ops : List TrackedOp) :
    ∀ (i : Nat) (op : TrackedOp) (e : ErrorCode), ops[i]? = some op →
      op.result = .error e →
      (∀ j q, j < i → ops[j]? = some q → q.result = .ok ()) →
      firstError ops = .error e := by
  induction ops with
  | nil =>
    intro i op e hget
    simp at hget
  | cons q ops ih =>
    intro i op e hget herr hbefore
    cases i with
    | zero =>
      rw [List.getElem?_cons_zero] at hget
      rw [firstError, Option.some.inj hget, herr]
    | succ i' =>
      have hq : q.result = .ok () :=
        hbefore 0 q (Nat.succ_pos i') List.getElem?_cons_zero
      rw [firstError, hq]
      rw [List.getElem?_cons_succ] at hget
      refine ih i' op e hget herr ?_
      intro j r hj hr
      exact hbefore (j + 1) r (by omega) (by rwa [List.getElem?_cons_succ])

/-- C5: `finish()` invokes the continuations strictly in FIFO registration
order — the invocation order is the registration order of the labels, and
is unchanged by arbitrarily permuting the futures' resolution order — every
registered operation is drained (one continuation per registration), and
the reported result is the first error among the resolved futures: a
non-error return means every registered operation succeeded, and if
operation `i` is the first to carry an error then exactly that error is
reported. -/
theorem finishGroup_fifo_and_first_error (ops : List TrackedOp) :
    (finishGroup ops).2 = ops.map TrackedOp.label ∧
    (∀ reorder : Nat → Nat,
      finishGroup (ops.map fun op =>
        { op with resolveOrder := reorder op.resolveOrder }) =
        ((finishGroup ops).1, (finishGroup ops).2)) ∧
    ((finishGroup ops).1 = .ok () ↔ ∀ op ∈ ops, op.result = .ok ()) ∧
    (∀ (i : Nat) (op : TrackedOp) (e : ErrorCode),
      ops[i]? = some op → op.result = .error e →
      (∀ (j : Nat) (q : TrackedOp), j < i → ops[j]? = some q →
        q.result = .ok ()) →
      (finishGroup ops).1 = .error e) := by
  have hrun : ∀ l : List TrackedOp, finishGroup l =
      (firstError l, l.map TrackedOp.label) := by
    intro l
    unfold finishGroup
    rw [finishGroup_foldl l (.ok ()) []]
    simp
  have hsame : ∀ reorder : Nat → Nat,
      firstError (ops.map fun op =>
        { op with resolveOrder := reorder op.resolveOrder }) = firstError ops := by
    intro reorder
    induction ops with
    | nil => rfl
    | cons op ops ih =>
      rw [List.map_cons, firstError, firstError]
      rcases h : op.result with e | u <;> simp [h, ih]
  refine ⟨?_, ?_, ?_, ?_⟩
  · rw [hrun]
  · intro reorder
    rw [hrun, hrun, hsame, List.map_map]
    rfl
  · rw [hrun]
    exact firstError_ok_iff ops
  · intro i op e hget herr hbefore
    rw [hrun]
    simpa using firstError_eq_first ops i op e hget herr hbefore

/-- Witness for C5: labels `A`, `B`, `C` registered in that order whose
futures resolve in order `C, A, B` (resolution positions 1, 2, 0), with
`B` resolving to an error: the continuations still run in order
`A, B, C` and `finish()` reports `B`'s error. -/
theorem finishGroup_fifo_and_first_error_witness :
    (finishGroup
      [{ label := "A", resolveOrder := 1, result := .ok () },
       { label := "B", resolveOrder := 2, result := .error .S3Error },
       { label := "C", resolveOrder := 0, result := .ok () }]).2 =
      ["A", "B", "C"] ∧
    (finishGroup
      [{ label := "A", resolveOrder := 1, result := .ok () },
       { label := "B", resolveOrder := 2, result := .error .S3Error },
       { label := "C", resolveOrder := 0, result := .ok () }]).1 =
      .error .S3Error := by
  have h := finishGroup_fifo_and_first_error
    [{ label := "A", resolveOrder := 1, result := .ok () },
     { label := "B", resolveOrder := 2, result := .error .S3Error },
     { label := "C", resolveOrder := 0, result := .ok () }]
  refine ⟨h.1, ?_⟩
  refine h.2.2.2 1 { label := "B", resolveOrder := 2, result := .error .S3Error }
    .S3Error rfl rfl ?_
  intro j q hj hq
  cases j with
  | zero =>
    rw [List.getElem?_cons_zero] at hq
    rw [← Option.some.inj hq]
  | succ j' => omega

/-- C6: payloads below the single-put threshold (`kS3DefaultBufSize`) take
the single synchronous `PutObject` path and no multipart session is
created; payloads at or above it go through the
create/upload-parts/complete multipart session, in both the synchronous
(`S3UploadOverwrite`) and asynchronous (`S3PutAsync`) entry points. -/
theorem put_size_routing (size : Nat) :
    (size < kS3DefaultBufSize ↔
      S3UploadOverwriteCalls size = some [.putObject size]) ∧
    (size < kS3DefaultBufSize ↔ S3PutAsyncPath size = .single) ∧
    (∀ cs, S3UploadOverwriteCalls size = some cs →
      (S3Call.createMultipartUpload ∈ cs ↔ kS3DefaultBufSize ≤ size)) := by
  by_cases h : size < kS3DefaultBufSize
  · refine ⟨⟨fun _ => ?_, fun _ => h⟩, ⟨fun _ => ?_, fun _ => h⟩, ?_⟩
    · rw [S3UploadOverwriteCalls, if_pos h]
    · rw [S3PutAsyncPath, if_pos h]
    · intro cs hcs
      rw [S3UploadOverwriteCalls, if_pos h] at hcs
      rw [← Option.some.inj hcs]
      constructor
      · intro hmem
        rcases List.mem_singleton.mp hmem with hcontra
        exact absurd hcontra (by simp)
      · intro hge
        omega
  · have hge : kS3DefaultBufSize ≤ size := Nat.le_of_not_lt h
    refine ⟨⟨fun hcontra => absurd hcontra h, fun heq => ?_⟩,
      ⟨fun hcontra => absurd hcontra h, fun heq => ?_⟩, ?_⟩
    · rw [S3UploadOverwriteCalls, if_neg h] at heq
      rcases hS : SegmentBuf 0 size with - | parts
      · rw [hS] at heq
        exact absurd heq (by simp)
      · rw [hS] at heq
        have := Option.some.inj heq
        exact absurd (congrArg List.head? this) (by simp)
    · rw [S3PutAsyncPath, if_neg h] at heq
      exact absurd heq (by simp)
    · intro cs hcs
      rw [S3UploadOverwriteCalls, if_neg h] at hcs
      rcases hS : SegmentBuf 0 size with - | parts
      · rw [hS] at hcs
        exact absurd hcs (by simp)
      · rw [hS] at hcs
        rw [← Option.some.inj hcs]
        exact ⟨fun _ => hge, fun _ => List.mem_cons_self _ _⟩

/-- Witness for C6 at a small payload (`4096` bytes) and at the threshold
(`kS3DefaultBufSize` bytes). -/
theorem put_size_routing_witness :
    S3UploadOverwriteCalls 4096 = some [.putObject 4096] ∧
    S3PutAsyncPath 4096 = .single ∧
    S3PutAsyncPath kS3DefaultBufSize = .multipart := by
  refine ⟨((put_size_routing 4096).1).mp (by decide),
    ((put_size_routing 4096).2.1).mp (by decide), ?_⟩
  rcases hpath : S3PutAsyncPath kS3DefaultBufSize with - | -
  · have := ((put_size_routing kS3DefaultBufSize).2.1).mpr hpath
    exact absurd this (by simp)
  · rfl

/-- C7 counterexample: on a non-existent object (a failed outcome with HTTP
404) `S3GetSize` returns the generic `ErrorCode.S3Error`, not
`ErrorCode.NotFound` as the claim states. -/
theorem S3GetSize_notfound_counterexample :
    (S3GetSize ("bucket") ("object")
      (fun _ => { isSuccess := false, responseCode := 404, result := 0 })).1 =
      .error .S3Error ∧
    (S3GetSize ("bucket") ("object")
      (fun _ => { isSuccess := false, responseCode := 404, result := 0 })).1 ≠
      .error .NotFound := by
  refine ⟨rfl, ?_⟩
  intro hcontra
  rw [show (S3GetSize ("bucket") ("object")
      (fun _ => { isSuccess := false, responseCode := 404, result := 0 })).1 =
      .error .S3Error from rfl] at hcontra
  injection hcontra with h
  exact ErrorCode.noConfusion h

/-- C7 (amended): `S3GetSize` issues exactly one synchronous `HeadObject`
request; a failed outcome that is not a 301 redirect — in particular a 404
for an object that does not exist — yields the ordinary error value
`ErrorCode.S3Error` (not an abort, and not a dedicated `NotFound` code),
a failed 301 outcome yields `ErrorCode.AWSWrongRegion`, and a successful
outcome yields the object's content length. -/
theorem S3GetSize_head_behaviour (bucket object : String)
    (respond : HeadObjectRequest → S3Outcome Nat) :
    (S3GetSize bucket object respond).2 =
      [{ bucket := bucket, key := object }] ∧
    ((respond { bucket := bucket, key := object }).isSuccess = false →
      (respond { bucket := bucket, key := object }).responseCode ≠ 301 →
      (S3GetSize bucket object respond).1 = .error .S3Error) ∧
    ((respond { bucket := bucket, key := object }).isSuccess = false →
      (respond { bucket := bucket, key := object }).responseCode = 301 →
      (S3GetSize bucket object respond).1 = .error .AWSWrongRegion) ∧
    ((respond { bucket := bucket, key := object }).isSuccess = true →
      (S3GetSize bucket object respond).1 =
        .ok (respond { bucket := bucket, key := object }).result) := by
  refine ⟨rfl, ?_, ?_, ?_⟩
  · intro hfail hcode
    rw [S3GetSize]
    simp only [CheckS3Error, hfail, Bool.false_eq_true, if_false, if_neg hcode]
  · intro hfail hcode
    rw [S3GetSize]
    simp only [CheckS3Error, hfail, Bool.false_eq_true, if_false, if_pos hcode]
  · intro hsucc
    rw [S3GetSize]
    simp only [CheckS3Error, hsucc, if_true]

/-- Witness for C7's amended claim at a successful outcome reporting a
content length of `4096`. -/
theorem S3GetSize_head_behaviour_witness :
    (S3GetSize ("b") ("o")
      (fun _ => { isSuccess := true, responseCode := 200, result := 4096 })).2 =
      [{ bucket := "b", key := "o" }] ∧
    (S3GetSize ("b") ("o")
      (fun _ => { isSuccess := true, responseCode := 200, result := 4096 })).1 =
      .ok 4096 := by
  have h := S3GetSize_head_behaviour ("b") ("o")
    (fun _ => { isSuccess := true, responseCode := 200, result := 4096 })
  exact ⟨h.1, h.2.2.2 rfl⟩

/-- C8: for every part with a positive exclusive end offset, the ranged
request's header is `bytes=start-e` where `e + 1` is the exclusive end
(one subtracted from it, the inclusive convention), and the response
buffer holds exactly `end - start + 1` bytes, i.e. one byte more than the
`e - start + 1` bytes the inclusive range denotes. -/
theorem prepare_object_request_inclusive (bucket object : String)
    (part : BufPart) (h : part.start < part.stop) :
    (∃ e, (PrepareObjectRequest bucket object part).range =
        "bytes=" ++ toString part.start ++ "-" ++ toString e ∧
      e + 1 = part.stop ∧
      (PrepareObjectRequest bucket object part).bufLen =
        (e - part.start + 1) + 1) ∧
    (PrepareObjectRequest bucket object part).bufLen =
      part.stop - part.start + 1 := by
  refine ⟨⟨part.stop - 1, rfl, by omega, ?_⟩, rfl⟩
  show part.stop - part.start + 1 = (part.stop - 1 - part.start + 1) + 1
  omega

/-- Witness for C8 at the part `[16, 48)`. -/
theorem prepare_object_request_inclusive_witness :
    (∃ e, (PrepareObjectRequest ("b") ("o")
        { start := 16, stop := 48 }).range =
        "bytes=" ++ toString 16 ++ "-" ++ toString e ∧
      e + 1 = 48 ∧
      (PrepareObjectRequest ("b") ("o") { start := 16, stop := 48 }).bufLen =
        (e - 16 + 1) + 1) ∧
    (PrepareObjectRequest ("b") ("o") { start := 16, stop := 48 }).bufLen =
      48 - 16 + 1 :=
  prepare_object_request_inclusive ("b") ("o") { start := 16, stop := 48 }
    (by decide)

/-- C9: for every bucket, object, start offset, destination buffer and
remote behaviour, `S3GetAsync` with `size = 0` returns success immediately:
no `GetObject` request is dispatched, the destination buffer is returned
unchanged, and no asynchronous work handle is produced. -/
theorem S3GetAsync_zero_size (bucket object : String) (start : Nat)
    (buf : List Nat) (respond : Nat → Nat) :
    S3GetAsync bucket object start 0 buf respond =
      some (.ok (), none, buf) := by
  rw [S3GetAsync, if_pos rfl]

theorem isPrefixOf_iff {l r : List Char} : l.isPrefixOf r = true ↔ l <+: r :=
  List.isPrefixOf_iff_prefix

theorem listShortName_some_iff (object key s : List Char) :
    listShortName object key = some s ↔
      ((object ++ ['/']).isPrefixOf key ∧
        s = key.drop (object.length + 1)) := by
  unfold listShortName
  by_cases h : object.isPrefixOf key ∧ key[object.length]? = some '/'
  · rw [if_pos h]
    obtain ⟨t, rfl⟩ := isPrefixOf_iff.mp h.1
    have hidx : (object ++ t)[object.length]? = t[0]? := by
      rw [List.getElem?_append_right (le_refl _), Nat.sub_self]
    rw [hidx] at h
    obtain ⟨c, t', rfl⟩ : ∃ c t', t = c :: t' := by
      cases t with
      | nil => exact absurd h.2 (by simp)
      | cons c t' => exact ⟨c, t', rfl⟩
    have hc : c = '/' := by
      have := h.2
      rw [List.getElem?_cons_zero] at this
      exact Option.some.inj this
    subst hc
    constructor
    · intro hs
      refine ⟨isPrefixOf_iff.mpr ⟨t', by simp⟩, ?_⟩
      rw [← Option.some.inj hs, List.drop_append 1]
    · intro ⟨_, hs⟩
      rw [hs, List.drop_append 1]
  · rw [if_neg h]
    constructor
    · intro hcontra
      exact absurd hcontra (by simp)
    · intro ⟨hpre, _⟩
      obtain ⟨t, ht⟩ := isPrefixOf_iff.mp hpre
      rw [List.append_assoc] at ht
      refine absurd ⟨isPrefixOf_iff.mpr ⟨'/' :: t, ht⟩, ?_⟩ h
      rw [← ht, List.getElem?_append_right (le_refl _), Nat.sub_self]
      simp

theorem processContents_none_iff (object : List Char) :
    ∀ (contents acc : List (List Char)),
      processContents object contents acc = none ↔
        ∃ key ∈ contents, listShortName object key = none := by
  intro contents
  induction contents with
  | nil =>
    intro acc
    simp [processContents]
  | cons key rest ih =>
    intro acc
    rw [processContents]
    rcases h : listShortName object key with - | short
    · simp only [h]
      constructor
      · intro _
        exact ⟨key, List.mem_cons_self key rest, h⟩
      · intro _
        trivial
    · simp only [h]
      rw [ih (acc.insert short)]
      constructor
      · intro ⟨k, hk, hnone⟩
        exact ⟨k, List.mem_cons_of_mem key hk, hnone⟩
      · intro ⟨k, hk, hnone⟩
        rcases List.mem_cons.mp hk with rfl | hk'
        · rw [h] at hnone
          exact absurd hnone (by simp)
        · exact ⟨k, hk', hnone⟩

theorem processContents_mem (object : List Char) :
    ∀ (contents acc next : List (List Char)),
      processContents object contents acc = some next →
      ∀ x, x ∈ next ↔
        (x ∈ acc ∨ ∃ key ∈ contents, listShortName object key = some x) := by
  intro contents
  induction contents with
  | nil =>
    intro acc next hsome x
    rw [processContents] at hsome
    rw [← Option.some.inj hsome]
    simp
  | cons key rest ih =>
    intro acc next hsome x
    rw [processContents] at hsome
    rcases h : listShortName object key with - | short
    · rw [h] at hsome
      exact absurd hsome (by simp)
    · rw [h] at hsome
      rw [ih (acc.insert short) next hsome x, List.mem_insert_iff]
      constructor
      · rintro ((rfl | hacc) | ⟨k, hk, hkshort⟩)
        · exact Or.inr ⟨key, List.mem_cons_self key rest, h⟩
        · exact Or.inl hacc
        · exact Or.inr ⟨k, List.mem_cons_of_mem key hk, hkshort⟩
      · rintro (hacc | ⟨k, hk, hkshort⟩)
        · exact Or.inl (Or.inr hacc)
        · rcases List.mem_cons.mp hk with rfl | hk'
          · rw [h] at hkshort
            exact Or.inl (Or.inl (Option.some.inj hkshort).symm)
          · exact Or.inr ⟨k, hk', hkshort⟩

theorem S3ListGo_ok_spec (object : List Char) :
    ∀ (pages : List ListPage) (acc names : List (List Char)) (used : Nat),
      S3ListGo object pages acc = .ok names used →
      (1 ≤ used ∧ used ≤ pages.length) ∧
      (∀ j, j + 1 < used → ∃ p, pages[j]? = some p ∧
        p.isTruncated = true ∧ p.nextToken ≠ []) ∧
      (∃ p, pages[used - 1]? = some p ∧ p.isTruncated = false) ∧
      (∀ x, x ∈ names ↔ (x ∈ acc ∨
        ∃ key ∈ ((pages.take used).map ListPage.contents).flatten,
          listShortName object key = some x)) := by
  intro pages
  induction pages with
  | nil =>
    intro acc names used h
    exact absurd h (by simp [S3ListGo])
  | cons page rest ih =>
    intro acc names used h
    rw [S3ListGo] at h
    rcases hp : processContents object page.contents acc with - | next
    · simp only [hp] at h
      exact absurd h (by simp)
    · simp only [hp] at h
      by_cases htr : page.isTruncated
      · rw [if_pos htr] at h
        by_cases htok : page.nextToken.length > 0
        · rw [if_pos htok] at h
          rcases hrec : S3ListGo object rest next with ⟨names', used'⟩ | - | -
          · simp only [hrec] at h
            injection h with hnames hused
            subst hnames
            obtain ⟨⟨hu1, hu2⟩, hmid, hlast, hmem⟩ :=
              ih next names' used' hrec
            refine ⟨⟨by omega, by simp only [List.length_cons]; omega⟩,
              ?_, ?_, ?_⟩
            · intro j hj
              cases j with
              | zero =>
                refine ⟨page, List.getElem?_cons_zero, htr, ?_⟩
                intro hnil
                rw [hnil] at htok
                exact absurd htok (by simp)
              | succ j' =>
                obtain ⟨p, hpj, hptr, hptok⟩ := hmid j' (by omega)
                exact ⟨p, by rwa [List.getElem?_cons_succ], hptr, hptok⟩
            · obtain ⟨k, hk⟩ : ∃ k, used' = k + 1 :=
                ⟨used' - 1, by omega⟩
              obtain ⟨p, hpj, hptr⟩ := hlast
              refine ⟨p, ?_, hptr⟩
              rw [← hused, hk]
              simp only [Nat.add_sub_cancel, List.getElem?_cons_succ]
              rw [hk] at hpj
              simpa using hpj
            · intro x
              rw [← hused]
              rw [hmem x, processContents_mem object page.contents acc next hp x]
              have htake : ((page :: rest).take (used' + 1)).map
                  ListPage.contents = page.contents ::
                    (rest.take used').map ListPage.contents := by
                rw [List.take_succ_cons, List.map_cons]
              rw [htake, List.flatten_cons]
              constructor
              · rintro ((hacc | ⟨k', hk', hsk⟩) | ⟨k', hk', hsk⟩)
                · exact Or.inl hacc
                · exact Or.inr ⟨k', List.mem_append_left _ hk', hsk⟩
                · exact Or.inr ⟨k', List.mem_append_right _ hk', hsk⟩
              · rintro (hacc | ⟨k', hk', hsk⟩)
                · exact Or.inl (Or.inl hacc)
                · rcases List.mem_append.mp hk' with hin | hin
                  · exact Or.inl (Or.inr ⟨k', hin, hsk⟩)
                  · exact Or.inr ⟨k', hin, hsk⟩
          · simp only [hrec] at h
            exact absurd h (by simp)
          · simp only [hrec] at h
            exact absurd h (by simp)
        · rw [if_neg htok] at h
          exact absurd h (by simp)
      · rw [if_neg htr] at h
        injection h with hnames hused
        subst hnames
        refine ⟨⟨by omega, by simp only [List.length_cons]; omega⟩,
          ?_, ?_, ?_⟩
        · intro j hj
          omega
        · refine ⟨page, ?_, ?_⟩
          · rw [← hused]
            exact List.getElem?_cons_zero
          · exact Bool.not_eq_true _ |>.mp htr
        · intro x
          rw [processContents_mem object page.contents acc next hp x, ← hused]
          simp only [List.take_succ_cons, List.take_zero, List.map_cons,
            List.map_nil, List.flatten_cons, List.flatten_nil,
            List.append_nil]

/-- C10: whenever the listing loop finishes normally, every name it
inserted into the caller's set is a returned key with the leading prefix
`object` and the following `'/'` separator removed (and conversely each
consumed key contributes its relative name); pagination consumed between 1
and all supplied responses, every page before the last consumed one was
truncated with a non-empty continuation token, and the last consumed page
was not truncated.  Moreover a page containing a key that does not begin
with the prefix immediately followed by `'/'` makes the loop fail the
assertion, as does a truncated page with an empty continuation token. -/
theorem S3ListAsync_short_names_pagination (object : List Char)
    (pages : List ListPage) :
    (∀ (names : List (List Char)) (used : Nat),
      S3ListAsync object pages = .ok names used →
      (1 ≤ used ∧ used ≤ pages.length) ∧
      (∀ j, j + 1 < used → ∃ p, pages[j]? = some p ∧
        p.isTruncated = true ∧ p.nextToken ≠ []) ∧
      (∃ p, pages[used - 1]? = some p ∧ p.isTruncated = false) ∧
      (∀ x, x ∈ names ↔
        ∃ key ∈ ((pages.take used).map ListPage.contents).flatten,
          (object ++ ['/']).isPrefixOf key ∧
            x = key.drop (object.length + 1))) ∧
    (∀ (page : ListPage) (rest : List ListPage) (acc : List (List Char)),
      (∃ key ∈ page.contents, ¬(object ++ ['/']).isPrefixOf key) →
      S3ListGo object (page :: rest) acc = .assertFail) ∧
    (∀ (page : ListPage) (rest : List ListPage) (acc : List (List Char)),
      page.isTruncated = true → page.nextToken = [] →
      S3ListGo object (page :: rest) acc = .assertFail) := by
  refine ⟨?_, ?_, ?_⟩
  · intro names used h
    obtain ⟨hbounds, hmid, hlast, hmem⟩ :=
      S3ListGo_ok_spec object pages [] names used h
    refine ⟨hbounds, hmid, hlast, ?_⟩
    intro x
    rw [hmem x]
    simp only [List.not_mem_nil, false_or]
    constructor
    · intro ⟨key, hkey, hshort⟩
      obtain ⟨hpre, hdrop⟩ := (listShortName_some_iff object key x).mp hshort
      exact ⟨key, hkey, hpre, hdrop⟩
    · intro ⟨key, hkey, hpre, hdrop⟩
      exact ⟨key, hkey, (listShortName_some_iff object key x).mpr ⟨hpre, hdrop⟩⟩
  · intro page rest acc ⟨key, hkey, hbad⟩
    have hnone : listShortName object key = none := by
      rcases hls : listShortName object key with - | s
      · rfl
      · obtain ⟨hpre, -⟩ := (listShortName_some_iff object key s).mp hls
        exact absurd hpre hbad
    have hpc : processContents object page.contents acc = none :=
      (processContents_none_iff object page.contents acc).mpr ⟨key, hkey, hnone⟩
    rw [S3ListGo]
    simp only [hpc]
  · intro page rest acc htr htok
    rw [S3ListGo]
    rcases hpc : processContents object page.contents acc with - | next
    · simp only [hpc]
    · simp only [hpc, htr, if_true, htok, List.length_nil]
      rfl

/-- Witness for C10: listing under prefix `"a"` over two pages returning
keys `"a/x"` and `"a/y"` consumes both pages (the first truncated with a
token, the last not truncated) and the set holds exactly the short names;
a key `"bx"` without the prefix fails the assertion, as does a truncated
page with an empty token. -/
theorem S3ListAsync_short_names_pagination_witness :
    (∃ p, ([pageListA, pageListB] : List ListPage)[2 - 1]? = some p ∧
      p.isTruncated = false) ∧
    ((['x'] : List Char) ∈ ([['y'], ['x']] : List (List Char)) ↔
      ∃ key ∈ ((([pageListA, pageListB] : List ListPage).take 2).map
        ListPage.contents).flatten,
        ((['a'] : List Char) ++ ['/']).isPrefixOf key ∧
          (['x'] : List Char) = key.drop (['a'].length + 1)) ∧
    S3ListGo ['a'] [pageListBad] [] = .assertFail ∧
    S3ListGo ['a'] [pageListEmptyTok] [] = .assertFail := by
  have h := S3ListAsync_short_names_pagination ['a'] [pageListA, pageListB]
  have hok := h.1 [['y'], ['x']] 2 (by decide)
  refine ⟨hok.2.2.1, hok.2.2.2 ['x'], ?_, ?_⟩
  · exact (S3ListAsync_short_names_pagination ['a'] [pageListBad]).2.1
      pageListBad [] [] ⟨['b', 'x'], by decide, by decide⟩
  · exact (S3ListAsync_short_names_pagination ['a'] [pageListEmptyTok]).2.2
      pageListEmptyTok [] [] rfl rfl

end Tsuba

